import Mathlib

set_option maxHeartbeats 1000000

/-!
Shallow embedding of the FTP download/classification pipeline of this
repository (`ftp.py` and `ftp_agenda.py`).  Python strings are modelled as
`List Char`; spreadsheet cells as `Option (List Char)` (a missing cell is
`none`, and Python truthiness of a cell value is "present and non-empty").
-/

/-- characters removed by the sanitizer's first regex substitution. -/
def illegalChars : List Char := ['\\', '/', '*', '?', ':', '"', '<', '>', '|']

def isIllegal (c : Char) : Bool := illegalChars.contains c

/-- whitespace characters matched by a Python regex whitespace class (ASCII range). -/
def isPySpace (c : Char) : Bool :=
  c == ' ' || c == '\t' || c == '\n' || c == '\x0b' || c == '\x0c' || c == '\r'

/-- first sanitizer step: delete the filesystem-illegal characters. -/
def removeIllegal (s : List Char) : List Char := s.filter (fun c => !isIllegal c)

/-- second sanitizer step: replace newlines and commas by single spaces. -/
def replaceNlComma (s : List Char) : List Char :=
  s.map (fun c => if c == '\n' || c == ',' then ' ' else c)

/-- third sanitizer step: collapse each maximal whitespace run to one space
(the boolean records whether the previous character was whitespace). -/
def collapseWsAux : Bool → List Char → List Char
  | _, [] => []
  | prevWs, c :: rest =>
    if isPySpace c then
      if prevWs then collapseWsAux true rest else ' ' :: collapseWsAux true rest
    else c :: collapseWsAux false rest

def collapseWs (s : List Char) : List Char := collapseWsAux false s

def lstripWs (s : List Char) : List Char := s.dropWhile isPySpace

def rstripWs (s : List Char) : List Char := (s.reverse.dropWhile isPySpace).reverse

/-- fourth sanitizer step, Python `str.strip()`. -/
def pyStrip (s : List Char) : List Char := rstripWs (lstripWs s)

/-- the sanitized string before any length truncation. -/
def sanitizeCore (s : List Char) : List Char :=
  pyStrip (collapseWs (replaceNlComma (removeIllegal s)))

def hexDigitChars : List Char := "0123456789abcdef".toList

def hexDigit (n : Nat) : Char := hexDigitChars.getD (n % 16) '0'

/-- renders `n` as exactly `k` hexadecimal characters (most significant first). -/
def hexRender : Nat → Nat → List Char
  | 0, _ => []
  | k + 1, n => hexRender k (n / 16) ++ [hexDigit (n % 16)]

/-- Modelled from the spec: the sanitizer appends "the first 8 hexadecimal characters of a
content-derived short hash" of the sanitized string (`hashlib.md5(...).hexdigest()` in the
source).  The hash library is external to this repository, so the digest is modelled as a
deterministic function from the input string to a 32-character hexadecimal string. -/
def md5hexdigest (s : List Char) : List Char :=
  hexRender 32 (s.foldl (fun a c => (a * 131 + c.toNat) % (2 ^ 128)) 5381)

/-- Python slice `s[:n]`, including the negative-index convention. -/
def pySliceTo (s : List Char) (n : Int) : List Char :=
  if 0 ≤ n then s.take n.toNat else s.take (s.length - (-n).toNat)

/-- truncation step of `sanitize_folder_name` in `ftp_agenda.py`: an over-long sanitized
name is cut to `max_length - 8` characters and the first 8 digest characters are appended. -/
def sanitizeTrunc (f : List Char) (maxLength : Nat) : List Char :=
  if maxLength < f.length
  then pySliceTo f ((maxLength : Int) - 8) ++ (md5hexdigest f).take 8
  else f

/-- `sanitize_folder_name` of `ftp_agenda.py` (`max_length` defaults to 50 at every call). -/
def sanitize_folder_name (s : List Char) (maxLength : Nat) : List Char :=
  if (sanitizeTrunc (sanitizeCore s) maxLength).isEmpty then "Unknown".toList
  else sanitizeTrunc (sanitizeCore s) maxLength

/-- `sanitize_folder_name` of `ftp.py` (no length bound, no hash suffix). -/
def sanitize_folder_name_v1 (s : List Char) : List Char :=
  let f := sanitizeCore s
  if f.isEmpty then "Unknown".toList else f

theorem mem_dropWhile_self {c : Char} {p : Char → Bool} :
    ∀ {s : List Char}, c ∈ s.dropWhile p → c ∈ s := by
  intro s h
  induction s with
  | nil => simp at h
  | cons a rest ih =>
    by_cases hp : p a = true
    · simp [List.dropWhile, hp] at h
      exact List.mem_cons_of_mem _ (ih h)
    · simp [List.dropWhile, hp] at h
      simpa using h

theorem mem_pyStrip {c : Char} {s : List Char} (h : c ∈ pyStrip s) : c ∈ s := by
  unfold pyStrip rstripWs lstripWs at h
  rw [List.mem_reverse] at h
  have h2 := mem_dropWhile_self h
  rw [List.mem_reverse] at h2
  exact mem_dropWhile_self h2

theorem mem_collapseWsAux {c : Char} :
    ∀ (b : Bool) (s : List Char), c ∈ collapseWsAux b s → c ∈ s ∨ c = ' ' := by
  intro b s
  induction s generalizing b with
  | nil => intro h; simp [collapseWsAux] at h
  | cons a rest ih =>
    intro h
    by_cases hsp : isPySpace a = true
    · cases b with
      | true =>
        simp [collapseWsAux, hsp] at h
        rcases ih true h with h' | h'
        · exact Or.inl (List.mem_cons_of_mem _ h')
        · exact Or.inr h'
      | false =>
        simp [collapseWsAux, hsp] at h
        rcases h with h' | h'
        · exact Or.inr h'
        · rcases ih true h' with h'' | h''
          · exact Or.inl (List.mem_cons_of_mem _ h'')
          · exact Or.inr h''
    · simp [collapseWsAux, hsp] at h
      rcases h with h' | h'
      · exact Or.inl (by simp [h'])
      · rcases ih false h' with h'' | h''
        · exact Or.inl (List.mem_cons_of_mem _ h'')
        · exact Or.inr h''

theorem mem_replaceNlComma {c : Char} {s : List Char} (h : c ∈ replaceNlComma s) :
    c ∈ s ∨ c = ' ' := by
  unfold replaceNlComma at h
  rcases List.mem_map.mp h with ⟨a, ha, hc⟩
  by_cases hx : (a == '\n' || a == ',') = true
  · rw [hx] at hc; simp at hc; exact Or.inr hc.symm
  · rw [Bool.not_eq_true] at hx
    rw [hx] at hc; simp at hc; subst hc; exact Or.inl ha

theorem sanitizeCore_safe {c : Char} {s : List Char} (h : c ∈ sanitizeCore s) :
    isIllegal c = false := by
  unfold sanitizeCore at h
  have h1 := mem_pyStrip h
  rcases mem_collapseWsAux false _ h1 with h2 | h2
  · rcases mem_replaceNlComma h2 with h3 | h3
    · have := List.mem_filter.mp h3
      simpa using this.2
    · subst h3; decide
  · subst h2; decide

theorem hexDigit_mem (n : Nat) : hexDigit n ∈ hexDigitChars := by
  unfold hexDigit
  have hlen : hexDigitChars.length = 16 := by decide
  have h : n % 16 < hexDigitChars.length := by
    rw [hlen]
    exact Nat.mod_lt _ (by norm_num)
  rw [List.getD_eq_getElem _ _ h]
  exact List.getElem_mem h

theorem hexRender_length (k : Nat) : ∀ n, (hexRender k n).length = k := by
  induction k with
  | zero => intro n; simp [hexRender]
  | succ k ih => intro n; simp [hexRender, ih]

theorem hexRender_mem {c : Char} (k : Nat) :
    ∀ n, c ∈ hexRender k n → c ∈ hexDigitChars := by
  induction k with
  | zero => intro n h; simp [hexRender] at h
  | succ k ih =>
    intro n h
    simp only [hexRender, List.mem_append, List.mem_singleton] at h
    rcases h with h | h
    · exact ih _ h
    · subst h; exact hexDigit_mem _

theorem md5hexdigest_length (s : List Char) : (md5hexdigest s).length = 32 := by
  unfold md5hexdigest; exact hexRender_length 32 _

theorem md5hexdigest_mem {c : Char} {s : List Char} (h : c ∈ md5hexdigest s) :
    c ∈ hexDigitChars := by
  unfold md5hexdigest at h; exact hexRender_mem 32 _ h

theorem hexDigitChars_safe {c : Char} (h : c ∈ hexDigitChars) : isIllegal c = false := by
  have hall : hexDigitChars.all (fun x => !isIllegal x) = true := by decide
  have hx := List.all_eq_true.mp hall c h
  simpa using hx


theorem take8_md5_length (s : List Char) : ((md5hexdigest s).take 8).length = 8 := by
  simp [List.length_take, md5hexdigest_length]

theorem take8_md5_ne_nil (s : List Char) : (md5hexdigest s).take 8 ≠ [] := by
  intro h
  have h3 := take8_md5_length s
  rw [h] at h3
  simp at h3

theorem sanitizeTrunc_of_long {f : List Char} (h : 50 < f.length) :
    sanitizeTrunc f 50 = f.take 42 ++ (md5hexdigest f).take 8 := by
  have htn : ((((50 : Nat) : Int)) - 8).toNat = 42 := rfl
  unfold sanitizeTrunc pySliceTo
  rw [if_pos h, if_pos (by norm_num : (0 : Int) ≤ ((50 : Nat) : Int) - 8), htn]

theorem sanitize_eq_of_long {s : List Char} (h : 50 < (sanitizeCore s).length) :
    sanitize_folder_name s 50
      = (sanitizeCore s).take 42 ++ (md5hexdigest (sanitizeCore s)).take 8 := by
  have hne : (sanitizeCore s).take 42 ++ (md5hexdigest (sanitizeCore s)).take 8 ≠ [] := by
    intro hA
    exact take8_md5_ne_nil (sanitizeCore s) (List.append_eq_nil.mp hA).2
  unfold sanitize_folder_name
  rw [sanitizeTrunc_of_long h, List.isEmpty_eq_false.mpr hne]
  simp

theorem sanitize_eq_of_short {s : List Char} (h : ¬ 50 < (sanitizeCore s).length) :
    sanitize_folder_name s 50
      = if (sanitizeCore s).isEmpty then "Unknown".toList else sanitizeCore s := by
  unfold sanitize_folder_name sanitizeTrunc
  rw [if_neg h]

/-- C3: for every input label, `sanitize_folder_name` (the NameSanitizer of
`ftp_agenda.py`, `max_length` at its default 50) returns a string containing none of the
characters `\ / * ? : " < > |`, of length at most 50, never empty; when the sanitized core
is empty it returns the literal `"Unknown"`. -/
theorem sanitize_folder_name_safe_bounded_nonempty (s : List Char) :
    (∀ c ∈ sanitize_folder_name s 50, isIllegal c = false)
    ∧ (sanitize_folder_name s 50).length ≤ 50
    ∧ sanitize_folder_name s 50 ≠ []
    ∧ (sanitizeCore s = [] → sanitize_folder_name s 50 = "Unknown".toList) := by
  by_cases h : 50 < (sanitizeCore s).length
  · rw [sanitize_eq_of_long h]
    refine ⟨?_, ?_, ?_, ?_⟩
    · intro c hc
      rcases List.mem_append.mp hc with h' | h'
      · exact sanitizeCore_safe (List.mem_of_mem_take h')
      · exact hexDigitChars_safe (md5hexdigest_mem (List.mem_of_mem_take h'))
    · have h42 : ((sanitizeCore s).take 42).length = 42 := by
        simp [List.length_take]; omega
      simp [List.length_append, h42, List.length_take, md5hexdigest_length]
    · intro hA
      exact take8_md5_ne_nil (sanitizeCore s) (List.append_eq_nil.mp hA).2
    · intro hce
      rw [hce] at h; simp at h
  · rw [sanitize_eq_of_short h]
    by_cases he : (sanitizeCore s).isEmpty
    · simp only [if_pos he]
      refine ⟨?_, ?_, ?_, ?_⟩
      · intro c hc
        fin_cases hc <;> decide
      · decide
      · decide
      · intro _; trivial
    · simp only [if_neg he]
      refine ⟨?_, ?_, ?_, ?_⟩
      · intro c hc; exact sanitizeCore_safe hc
      · omega
      · intro hnil
        exact he (List.isEmpty_iff.mpr hnil)
      · intro hce
        exact absurd (List.isEmpty_iff.mpr hce) he

/-- C3 witness: concrete evaluations of the sanitizer, including the empty-result fallback. -/
theorem sanitize_folder_name_safe_bounded_nonempty_witness :
    sanitize_folder_name "///:??".toList 50 = "Unknown".toList
    ∧ (sanitize_folder_name "a<b>c".toList 50).length ≤ 50 := by
  refine ⟨?_, (sanitize_folder_name_safe_bounded_nonempty "a<b>c".toList).2.1⟩
  exact (sanitize_folder_name_safe_bounded_nonempty "///:??".toList).2.2.2 (by decide)

/-- C4: for every label whose sanitized form exceeds the default maximum length 50,
`sanitize_folder_name` returns the first 42 = 50 − 8 characters of the sanitized string
followed by an 8-character suffix drawn from the hexadecimal digest of the pre-truncation
sanitized string; the result has length exactly 50, its last 8 characters are hexadecimal,
and the suffix depends only on the pre-truncation sanitized string. -/
theorem sanitize_folder_name_truncation_hash (s : List Char)
    (h : 50 < (sanitizeCore s).length) :
    sanitize_folder_name s 50
      = (sanitizeCore s).take 42 ++ (md5hexdigest (sanitizeCore s)).take 8
    ∧ (sanitize_folder_name s 50).length = 50
    ∧ (sanitize_folder_name s 50).drop 42 = (md5hexdigest (sanitizeCore s)).take 8
    ∧ ((sanitize_folder_name s 50).drop 42).length = 8
    ∧ (∀ c ∈ (sanitize_folder_name s 50).drop 42, c ∈ hexDigitChars)
    ∧ (∀ t : List Char, sanitizeCore t = sanitizeCore s →
        sanitize_folder_name t 50 = (sanitizeCore s).take 42
          ++ (md5hexdigest (sanitizeCore s)).take 8) := by
  have heq := sanitize_eq_of_long h
  have h42 : ((sanitizeCore s).take 42).length = 42 := by
    simp [List.length_take]; omega
  have hdrop : (sanitize_folder_name s 50).drop 42 = (md5hexdigest (sanitizeCore s)).take 8 := by
    rw [heq]
    have := List.drop_left ((sanitizeCore s).take 42) ((md5hexdigest (sanitizeCore s)).take 8)
    rw [h42] at this
    exact this
  refine ⟨heq, ?_, hdrop, ?_, ?_, ?_⟩
  · rw [heq]
    simp [List.length_append, h42, List.length_take, md5hexdigest_length]
  · rw [hdrop]; exact take8_md5_length _
  · intro c hc
    rw [hdrop] at hc
    exact md5hexdigest_mem (List.mem_of_mem_take hc)
  · intro t ht
    have ht50 : 50 < (sanitizeCore t).length := by rw [ht]; exact h
    rw [sanitize_eq_of_long ht50, ht]

/-- C4 witness: the scenario-D label sanitizes to exactly 50 characters whose last 8
characters are hexadecimal digits. -/
theorem sanitize_folder_name_truncation_hash_witness :
    (sanitize_folder_name
        "Very long category name that exceeds fifty characters total length easily".toList
        50).length = 50
    ∧ ((sanitize_folder_name
        "Very long category name that exceeds fifty characters total length easily".toList
        50).drop 42).length = 8 := by
  have h := sanitize_folder_name_truncation_hash
    "Very long category name that exceeds fifty characters total length easily".toList
    (by decide)
  exact ⟨h.2.1, h.2.2.2.1⟩

/-- rightmost index of a character in a string (Python `str.rfind`, `none` for −1). -/
def rfindIdx (c : Char) : List Char → Option Nat
  | [] => none
  | a :: rest =>
    match rfindIdx c rest with
    | some i => some (i + 1)
    | none => if a == c then some 0 else none

/-- Python `os.path.dirname` for POSIX paths: keep everything up to the last slash,
then strip trailing slashes unless the head is empty or all slashes. -/
def pyDirname (p : List Char) : List Char :=
  let i := match rfindIdx '/' p with
    | none => 0
    | some j => j + 1
  let head := p.take i
  if !head.isEmpty && !(head.all (fun c => c == '/'))
  then (head.reverse.dropWhile (fun c => c == '/')).reverse
  else head

/-- Python `os.path.join` for POSIX paths, two arguments. -/
def pyJoin (a b : List Char) : List Char :=
  if b.head? == some '/' then b
  else if a.isEmpty || a.getLast? == some '/' then a ++ b
  else a ++ '/' :: b

def isAsciiDigit (c : Char) : Bool := '0' ≤ c && c ≤ '9'

/-- Python `str.isdigit` restricted to ASCII decimal digits. -/
def pyIsdigit (s : List Char) : Bool := !s.isEmpty && s.all isAsciiDigit

/-- decimal value of a digit string (Python `int(...)`). -/
def decToNat (s : List Char) : Nat :=
  s.foldl (fun a c => a * 10 + (c.toNat - '0'.toNat)) 0

inductive NavState where
  | browsing (path : List Char)
  | selected (path : List Char)
  deriving DecidableEq

/-- one iteration of the interactive directory-navigation loop of `download_ftp_folder`
(identical in `ftp.py` and `ftp_agenda.py`): choice `"0"` selects the current directory,
`"-1"` moves to the parent directory, a numeral between 1 and the number of listed child
directories enters that child, and any other input re-prompts at the same path. -/
def navStep (currentDir : List Char) (dirs : List (List Char)) (choice : List Char) :
    NavState :=
  if choice = "0".toList then NavState.selected currentDir
  else if choice = "-1".toList then NavState.browsing (pyDirname currentDir)
  else if pyIsdigit choice = true ∧ 1 ≤ decToNat choice ∧ decToNat choice ≤ dirs.length then
    NavState.browsing (pyJoin currentDir (dirs.getD (decToNat choice - 1) []))
  else NavState.browsing currentDir

/-- C8: in the navigation state machine, choosing "go up" at the root path `"/"` leaves the
current path at `"/"` (`os.path.dirname "/" = "/"`), and therefore any number of repeated
"go up" steps at the root stays at the root. -/
theorem goUp_at_root_stays_at_root :
    (∀ dirs : List (List Char),
      navStep "/".toList dirs "-1".toList = NavState.browsing "/".toList)
    ∧ ∀ n : Nat, pyDirname^[n] "/".toList = "/".toList := by
  have hroot : pyDirname "/".toList = "/".toList := by decide
  constructor
  · intro dirs
    unfold navStep
    rw [if_neg (by decide), if_pos rfl, hroot]
  · intro n
    induction n with
    | zero => rfl
    | succ n ih => rw [Function.iterate_succ_apply, hroot, ih]

/-- tokenizer of Python `str.split()` with no separator argument: maximal runs of
non-whitespace characters (the accumulator holds the current token reversed). -/
def splitWsAux : List Char → List Char → List (List Char)
  | [], acc => if acc.isEmpty then [] else [acc.reverse]
  | c :: rest, acc =>
    if isPySpace c then
      if acc.isEmpty then splitWsAux rest [] else acc.reverse :: splitWsAux rest []
    else splitWsAux rest (c :: acc)

def pySplitWs (s : List Char) : List (List Char) := splitWsAux s []

/-- last whitespace-separated token of each line (`x.split()[-1]` applied per line of the
LIST output); a line with no token raises `IndexError` in the source, modelled as `none`. -/
def lastTokens : List (List Char) → Option (List (List Char))
  | [] => some []
  | x :: rest =>
    match (pySplitWs x).getLast?, lastTokens rest with
    | some t, some ts => some (t :: ts)
    | _, _ => none

/-- `list_directories` of both source files: collect the final token of every listing line,
then keep only the names containing no dot. -/
def list_directories (lines : List (List Char)) : Option (List (List Char)) :=
  match lastTokens lines with
  | none => none
  | some ds => some (ds.filter (fun d => !d.contains '.'))

theorem splitWsAux_no_ws {t : List Char} :
    ∀ (s acc : List Char), (∀ c ∈ acc, isPySpace c = false) →
      t ∈ splitWsAux s acc → ∀ c ∈ t, isPySpace c = false := by
  intro s
  induction s with
  | nil =>
    intro acc hacc ht c hc
    by_cases he : acc.isEmpty
    · simp [splitWsAux, he] at ht
    · simp [splitWsAux, he] at ht
      subst ht
      exact hacc c (List.mem_reverse.mp hc)
  | cons a rest ih =>
    intro acc hacc ht c hc
    by_cases hsp : isPySpace a = true
    · by_cases he : acc.isEmpty
      · simp [splitWsAux, hsp, he] at ht
        exact ih [] (by simp) ht c hc
      · simp [splitWsAux, hsp, he] at ht
        rcases ht with ht | ht
        · subst ht
          exact hacc c (List.mem_reverse.mp hc)
        · exact ih [] (by simp) ht c hc
    · simp [splitWsAux, hsp] at ht
      refine ih (a :: acc) ?_ ht c hc
      intro c' hc'
      rcases List.mem_cons.mp hc' with h' | h'
      · subst h'; simpa using hsp
      · exact hacc c' h'

theorem pySplitWs_no_ws {t : List Char} {s : List Char} (ht : t ∈ pySplitWs s) :
    ∀ c ∈ t, isPySpace c = false :=
  splitWsAux_no_ws s [] (by simp) ht

theorem lastTokens_mem {d : List Char} :
    ∀ {lines ds : List (List Char)}, lastTokens lines = some ds → d ∈ ds →
      ∃ x ∈ lines, (pySplitWs x).getLast? = some d := by
  intro lines
  induction lines with
  | nil =>
    intro ds h hd
    simp [lastTokens] at h
    subst h; simp at hd
  | cons x rest ih =>
    intro ds h hd
    unfold lastTokens at h
    cases hx : (pySplitWs x).getLast? with
    | none => rw [hx] at h; simp at h
    | some t =>
      rw [hx] at h
      cases hr : lastTokens rest with
      | none => rw [hr] at h; simp at h
      | some ts =>
        rw [hr] at h
        simp at h
        subst h
        rcases List.mem_cons.mp hd with h' | h'
        · exact ⟨x, List.mem_cons_self _ _, by rw [hx, h']⟩
        · rcases ih hr h' with ⟨y, hy, hyd⟩
          exact ⟨y, List.mem_cons_of_mem _ hy, hyd⟩

theorem lastTokens_complete {d x : List Char} :
    ∀ {lines ds : List (List Char)}, lastTokens lines = some ds → x ∈ lines →
      (pySplitWs x).getLast? = some d → d ∈ ds := by
  intro lines
  induction lines with
  | nil => intro ds _ hx; simp at hx
  | cons y rest ih =>
    intro ds h hx hd
    unfold lastTokens at h
    cases hy : (pySplitWs y).getLast? with
    | none => rw [hy] at h; simp at h
    | some t =>
      rw [hy] at h
      cases hr : lastTokens rest with
      | none => rw [hr] at h; simp at h
      | some ts =>
        rw [hr] at h
        simp at h
        subst h
        rcases List.mem_cons.mp hx with h' | h'
        · subst h'
          rw [hy] at hd
          simp at hd
          simp [hd]
        · exact List.mem_cons_of_mem _ (ih hr h' hd)

/-- C9: `list_directories` returns, per line of the raw LIST output, only the line's final
whitespace-separated token, and drops every name containing a dot: every returned entry is
dot-free and whitespace-free, every returned entry is the final token of some line, and the
dot-free final token of every line is returned. -/
theorem list_directories_last_token_no_dot (lines ds : List (List Char))
    (h : lastTokens lines = some ds) :
    list_directories lines = some (ds.filter (fun d => !d.contains '.'))
    ∧ (∀ d ∈ ds.filter (fun d => !d.contains '.'), d.contains '.' = false)
    ∧ (∀ d ∈ ds.filter (fun d => !d.contains '.'),
        ∃ x ∈ lines, (pySplitWs x).getLast? = some d)
    ∧ (∀ x ∈ lines, ∀ d, (pySplitWs x).getLast? = some d → d.contains '.' = false →
        d ∈ ds.filter (fun d => !d.contains '.'))
    ∧ (∀ d ∈ ds.filter (fun d => !d.contains '.'), ∀ c ∈ d, isPySpace c = false) := by
  refine ⟨by simp [list_directories, h], ?_, ?_, ?_, ?_⟩
  · intro d hd
    have := (List.mem_filter.mp hd).2
    simpa using this
  · intro d hd
    exact lastTokens_mem h (List.mem_filter.mp hd).1
  · intro x hx d hd hdot
    refine List.mem_filter.mpr ⟨lastTokens_complete h hx hd, by simpa using hdot⟩
  · intro d hd c hc
    have hmem := (List.mem_filter.mp hd).1
    rcases lastTokens_mem h hmem with ⟨x, _, hxd⟩
    exact pySplitWs_no_ws (List.mem_of_getLast?_eq_some hxd) c hc

/-- C9 witness: a listing with a space-bearing directory name and a dotted file name. -/
theorem list_directories_last_token_no_dot_witness :
    lastTokens ["drwxr 1 ftp Meeting Docs".toList, "rw 1 ftp readme.txt".toList]
      = some ["Docs".toList, "readme.txt".toList]
    ∧ list_directories ["drwxr 1 ftp Meeting Docs".toList, "rw 1 ftp readme.txt".toList]
      = some ["Docs".toList] := by
  have h := list_directories_last_token_no_dot
    ["drwxr 1 ftp Meeting Docs".toList, "rw 1 ftp readme.txt".toList]
    ["Docs".toList, "readme.txt".toList] (by decide)
  refine ⟨by decide, ?_⟩
  rw [h.1]
  decide

/-- a spreadsheet cell value as `values_only=True` yields it; `none` is an empty cell. -/
abbrev Cell := Option (List Char)

/-- one manifest row: the tuple of its cell values. -/
abbrev ManifestRow := List Cell

/-- Python truthiness of a cell value: `None` and the empty string are falsy. -/
def truthyCell : Cell → Bool
  | none => false
  | some s => !s.isEmpty

/-- association-list model of a Python `dict` keyed by strings: assignment to an existing
key overwrites its value in place, a new key is appended at the end. -/
abbrev Dict := List (List Char × List Char)

def dictInsert (m : Dict) (k v : List Char) : Dict :=
  if m.any (fun p => p.1 == k) then m.map (fun p => if p.1 == k then (k, v) else p)
  else m ++ [(k, v)]

def dictFind? (m : Dict) (k : List Char) : Option (List Char) :=
  (m.find? (fun p => p.1 == k)).map (fun p => p.2)

theorem dictFind?_overwrite (k v : List Char) :
    ∀ m : Dict, m.any (fun p => p.1 == k) = true →
      dictFind? (m.map (fun p => if p.1 == k then (k, v) else p)) k = some v := by
  intro m
  induction m with
  | nil => intro h; simp at h
  | cons p rest ih =>
    intro hany
    by_cases hp : (p.1 == k) = true
    · simp only [List.map_cons, if_pos hp, dictFind?, List.find?, beq_self_eq_true]
      rfl
    · have hany' : rest.any (fun q => q.1 == k) = true := by
        simp only [List.any_cons, hp, Bool.false_or] at hany
        exact hany
      simp only [List.map_cons, if_neg hp, dictFind?, List.find?,
        Bool.not_eq_true] at hp ⊢
      rw [hp]
      exact ih hany'

theorem dictFind?_overwrite_ne (k v k' : List Char) (hk : k' ≠ k) :
    ∀ m : Dict, dictFind? (m.map (fun p => if p.1 == k then (k, v) else p)) k'
      = dictFind? m k' := by
  intro m
  induction m with
  | nil => rfl
  | cons p rest ih =>
    by_cases hp : (p.1 == k) = true
    · have hpe : p.1 = k := by simpa using hp
      have h1 : (((k, v) : List Char × List Char).1 == k') = false := by
        simp; intro he; exact hk he.symm
      have h2 : (p.1 == k') = false := by
        rw [hpe]; simp; intro he; exact hk he.symm
      simp only [List.map_cons, if_pos hp, dictFind?, List.find?, h1, h2]
      exact ih
    · simp only [List.map_cons, if_neg hp, dictFind?, List.find?]
      by_cases hq : (p.1 == k') = true
      · rw [hq]
      · rw [Bool.not_eq_true] at hq
        rw [hq]
        exact ih

theorem dictFind?_append_new (m : Dict) (k v : List Char)
    (hany : m.any (fun p => p.1 == k) = false) (k' : List Char) :
    dictFind? (m ++ [(k, v)]) k' = if k' = k then some v else dictFind? m k' := by
  unfold dictFind?
  rw [List.find?_append]
  by_cases hk : k' = k
  · subst hk
    have hnone : m.find? (fun p => p.1 == k') = none := by
      rw [List.find?_eq_none]
      intro x hx
      have := List.any_eq_false.mp hany x hx
      simpa using this
    rw [hnone, if_pos rfl]
    simp [List.find?]
  · rw [if_neg hk]
    have hkk : (k == k') = false := by
      simp only [beq_eq_false_iff_ne, ne_eq]
      intro he; exact hk he.symm
    have hone : ([((k, v) : List Char × List Char)].find? (fun p => p.1 == k')) = none := by
      simp [List.find?, hkk]
    rw [hone]
    cases m.find? (fun p => p.1 == k') <;> rfl

theorem dictFind?_insert (m : Dict) (k v k' : List Char) :
    dictFind? (dictInsert m k v) k'
      = if k' = k then some v else dictFind? m k' := by
  unfold dictInsert
  by_cases hany : m.any (fun p => p.1 == k) = true
  · rw [if_pos hany]
    by_cases hk : k' = k
    · rw [if_pos hk, hk]
      exact dictFind?_overwrite k v m hany
    · rw [if_neg hk]
      exact dictFind?_overwrite_ne k v k' hk m
  · rw [Bool.not_eq_true] at hany
    rw [hany]
    simp only [Bool.false_eq_true, if_false]
    exact dictFind?_append_new m k v hany k'

def tdocLit : List Char := "TDoc".toList

/-- does a manifest row contain both header labels as cell values
(`'TDoc' in row and catLabel in row`)? -/
def rowHasHeaders (catLabel : List Char) (r : ManifestRow) : Bool :=
  r.contains (some tdocLit) && r.contains (some catLabel)

/-- `makedirs` guarded by `os.path.exists`: a folder name is added once. -/
def addFolder (fs : List (List Char)) (f : List Char) : List (List Char) :=
  if fs.contains f then fs else fs ++ [f]

/-- one iteration of the indexing loop of `download_ftp_folder`: when both located column
positions are in range and both cell values are truthy, the category value is sanitized,
its folder is created (if absent) and the identifier is mapped to it (overwriting any
earlier mapping); otherwise the row is skipped. -/
def indexRowStep (san : List Char → List Char) (ti ci : Nat)
    (st : List (List Char) × Dict) (r : ManifestRow) : List (List Char) × Dict :=
  if max ti ci < r.length then
    let tdoc := r.getD ti none
    let tv := r.getD ci none
    if truthyCell tv && truthyCell tdoc then
      let s := san (tv.getD [])
      (addFolder st.1 s, dictInsert st.2 (tdoc.getD []) s)
    else st
  else st

/-- folder set and identifier→category map accumulated by the indexing loop over a row
sequence. -/
def buildFoldersMap (san : List Char → List Char) (ti ci : Nat)
    (rows : List ManifestRow) : List (List Char) × Dict :=
  rows.foldl (indexRowStep san ti ci) ([], [])

inductive SchemaError where
  | missingHeader
  deriving DecidableEq

/-- the manifest-indexing phase of `download_ftp_folder`: find the first row containing
both header labels; if none, signal the missing schema; otherwise locate the two column
positions in that row and run the indexing loop over every sheet row after the first
(`iter_rows(min_row=sheet.min_row + 1)`). -/
def buildIndex (san : List Char → List Char) (catLabel : List Char)
    (rows : List ManifestRow) : Except SchemaError Dict :=
  match rows.find? (rowHasHeaders catLabel) with
  | none => Except.error SchemaError.missingHeader
  | some hr =>
    Except.ok (buildFoldersMap san (hr.indexOf (some tdocLit))
      (hr.indexOf (some catLabel)) (rows.drop 1)).2

/-- the indexing phase as claim C1 describes it: identical per-row processing, but run only
over the rows strictly after the located header row. -/
def buildIndexClaimed (san : List Char → List Char) (catLabel : List Char)
    (rows : List ManifestRow) : Except SchemaError Dict :=
  match rows.find? (rowHasHeaders catLabel) with
  | none => Except.error SchemaError.missingHeader
  | some hr =>
    Except.ok (buildFoldersMap san (hr.indexOf (some tdocLit))
      (hr.indexOf (some catLabel))
      (rows.drop (rows.findIdx (rowHasHeaders catLabel) + 1))).2

/-- does a row yield a mapping entry for identifier `k` under column positions `ti`, `ci`? -/
def rowYields (ti ci : Nat) (k : List Char) (r : ManifestRow) : Bool :=
  decide (max ti ci < r.length) && truthyCell (r.getD ci none)
    && truthyCell (r.getD ti none) && ((r.getD ti none).getD [] == k)

/-- sanitized category of the last processed row that yields an entry for `k`. -/
def lastCategory (san : List Char → List Char) (ti ci : Nat) (rows : List ManifestRow)
    (k : List Char) : Option (List Char) :=
  ((rows.reverse.find? (rowYields ti ci k)).map (fun r => san ((r.getD ci none).getD [])))

theorem dictFind?_indexRowStep (san : List Char → List Char) (ti ci : Nat)
    (st : List (List Char) × Dict) (r : ManifestRow) (k : List Char) :
    dictFind? (indexRowStep san ti ci st r).2 k
      = if rowYields ti ci k r = true then some (san ((r.getD ci none).getD []))
        else dictFind? st.2 k := by
  unfold indexRowStep rowYields
  by_cases hlen : max ti ci < r.length
  · rw [if_pos hlen]
    by_cases htv : truthyCell (r.getD ci none) = true
    · by_cases htd : truthyCell (r.getD ti none) = true
      · rw [if_pos (by rw [htv, htd]; rfl)]
        simp only [dictFind?_insert]
        by_cases hk : ((r.getD ti none).getD [] == k) = true
        · have hk' : k = (r.getD ti none).getD [] := (beq_iff_eq.mp hk).symm
          rw [if_pos hk', if_pos (by
            simp only [Bool.and_eq_true, decide_eq_true_eq]
            exact ⟨⟨⟨hlen, htv⟩, htd⟩, hk⟩)]
        · have hk' : ¬ k = (r.getD ti none).getD [] := by
            intro he
            exact hk (beq_iff_eq.mpr he.symm)
          rw [if_neg hk', if_neg (by
            intro hco
            simp only [Bool.and_eq_true, decide_eq_true_eq] at hco
            exact hk hco.2)]
      · rw [if_neg (by rw [htv]; simpa using htd), if_neg (by
          intro hco
          simp only [Bool.and_eq_true, decide_eq_true_eq] at hco
          exact htd hco.1.2)]
    · rw [if_neg (by
        intro hco
        simp only [Bool.and_eq_true] at hco
        exact htv hco.1), if_neg (by
        intro hco
        simp only [Bool.and_eq_true, decide_eq_true_eq] at hco
        exact htv hco.1.1.2)]
  · rw [if_neg hlen, if_neg (by
      intro hco
      simp only [Bool.and_eq_true, decide_eq_true_eq] at hco
      exact hlen hco.1.1.1)]

theorem folders_indexRowStep (san : List Char → List Char) (ti ci : Nat)
    (st : List (List Char) × Dict) (r : ManifestRow) :
    (indexRowStep san ti ci st r).1
      = if (decide (max ti ci < r.length) && truthyCell (r.getD ci none)
            && truthyCell (r.getD ti none)) = true
        then addFolder st.1 (san ((r.getD ci none).getD []))
        else st.1 := by
  unfold indexRowStep
  by_cases hlen : max ti ci < r.length
  · rw [if_pos hlen]
    by_cases htv : truthyCell (r.getD ci none) = true
    · by_cases htd : truthyCell (r.getD ti none) = true
      · rw [if_pos (by rw [htv, htd]; rfl), if_pos (by
          simp only [Bool.and_eq_true, decide_eq_true_eq]
          exact ⟨⟨hlen, htv⟩, htd⟩)]
      · rw [if_neg (by rw [htv]; simpa using htd), if_neg (by
          intro hco
          simp only [Bool.and_eq_true, decide_eq_true_eq] at hco
          exact htd hco.2)]
    · rw [if_neg (by
        intro hco
        simp only [Bool.and_eq_true] at hco
        exact htv hco.1), if_neg (by
        intro hco
        simp only [Bool.and_eq_true, decide_eq_true_eq] at hco
        exact htv hco.1.2)]
  · rw [if_neg hlen, if_neg (by
      intro hco
      simp only [Bool.and_eq_true, decide_eq_true_eq] at hco
      exact hlen hco.1.1)]

theorem dict_fold_lookup (san : List Char → List Char) (ti ci : Nat) :
    ∀ (rows : List ManifestRow) (st : List (List Char) × Dict) (k : List Char),
      dictFind? (rows.foldl (indexRowStep san ti ci) st).2 k
        = match rows.reverse.find? (rowYields ti ci k) with
          | some r => some (san ((r.getD ci none).getD []))
          | none => dictFind? st.2 k := by
  intro rows
  induction rows with
  | nil => intro st k; rfl
  | cons r rest ih =>
    intro st k
    rw [List.foldl_cons, ih]
    have hrev : (r :: rest).reverse = rest.reverse ++ [r] := by simp
    rw [hrev, List.find?_append]
    cases hfind : rest.reverse.find? (rowYields ti ci k) with
    | some r' => rfl
    | none =>
      simp only [Option.or]
      rw [dictFind?_indexRowStep]
      cases hy : rowYields ti ci k r with
      | true => simp [List.find?, hy]
      | false => simp [List.find?, hy]

/-- C1 counterexample: with the header pair on the second sheet row, the indexing loop —
which runs from `min_row + 1`, i.e. over every sheet row but the first — processes the
header row itself and records an entry for it, while no row after the located header row
records any, so the mapping differs from the one the claim describes. -/
theorem buildIndex_processes_rows_before_header :
    buildIndex (fun s => sanitize_folder_name s 50) "Type".toList
        [[some "A".toList, some "B".toList], [some tdocLit, some "Type".toList]]
      = Except.ok [(tdocLit, "Type".toList)]
    ∧ buildIndexClaimed (fun s => sanitize_folder_name s 50) "Type".toList
        [[some "A".toList, some "B".toList], [some tdocLit, some "Type".toList]]
      = Except.ok []
    ∧ buildIndex (fun s => sanitize_folder_name s 50) "Type".toList
        [[some "A".toList, some "B".toList], [some tdocLit, some "Type".toList]]
      ≠ buildIndexClaimed (fun s => sanitize_folder_name s 50) "Type".toList
        [[some "A".toList, some "B".toList], [some tdocLit, some "Type".toList]] := by
  have h1 : buildIndex (fun s => sanitize_folder_name s 50) "Type".toList
      [[some "A".toList, some "B".toList], [some tdocLit, some "Type".toList]]
      = Except.ok [(tdocLit, "Type".toList)] := rfl
  have h2 : buildIndexClaimed (fun s => sanitize_folder_name s 50) "Type".toList
      [[some "A".toList, some "B".toList], [some tdocLit, some "Type".toList]]
      = Except.ok [] := rfl
  refine ⟨h1, h2, ?_⟩
  rw [h1, h2]
  intro h
  injection h with h
  simp at h

/-- C1 (amended): when a header row is located, `buildIndex` builds its mapping from every
sheet row after the first (not only rows after the located header row); for each processed
row with both column positions in range and both cell values non-empty the identifier is
mapped to the sanitized category, overwriting any earlier entry, so the final mapping
holds, for every identifier, the sanitized category of the last such row (last-row-wins),
and no identifier outside those rows is mapped. -/
theorem buildIndex_last_row_wins (san : List Char → List Char) (catLabel : List Char)
    (rows : List ManifestRow) (hr : ManifestRow)
    (h : rows.find? (rowHasHeaders catLabel) = some hr) (k : List Char) :
    buildIndex san catLabel rows
      = Except.ok (buildFoldersMap san (hr.indexOf (some tdocLit))
          (hr.indexOf (some catLabel)) (rows.drop 1)).2
    ∧ dictFind? (buildFoldersMap san (hr.indexOf (some tdocLit))
          (hr.indexOf (some catLabel)) (rows.drop 1)).2 k
      = lastCategory san (hr.indexOf (some tdocLit)) (hr.indexOf (some catLabel))
          (rows.drop 1) k := by
  constructor
  · unfold buildIndex
    rw [h]
  · unfold buildFoldersMap lastCategory
    rw [dict_fold_lookup]
    cases hf : (rows.drop 1).reverse.find? (rowYields (hr.indexOf (some tdocLit))
        (hr.indexOf (some catLabel)) k) <;> simp [hf, dictFind?]

/-- C1 witness: with duplicate identifiers the final mapping holds the category of the
row with the highest row index. -/
theorem buildIndex_last_row_wins_witness :
    buildIndex (fun s => sanitize_folder_name s 50) "Type".toList
        [[some tdocLit, some "Type".toList],
         [some "S1-001".toList, some "CatA".toList],
         [some "S1-001".toList, some "CatB".toList]]
      = Except.ok (buildFoldersMap (fun s => sanitize_folder_name s 50) 0 1
          [[some "S1-001".toList, some "CatA".toList],
           [some "S1-001".toList, some "CatB".toList]]).2
    ∧ dictFind? (buildFoldersMap (fun s => sanitize_folder_name s 50) 0 1
          [[some "S1-001".toList, some "CatA".toList],
           [some "S1-001".toList, some "CatB".toList]]).2 "S1-001".toList
      = some "CatB".toList := by
  have h := buildIndex_last_row_wins (fun s => sanitize_folder_name s 50) "Type".toList
    [[some tdocLit, some "Type".toList],
     [some "S1-001".toList, some "CatA".toList],
     [some "S1-001".toList, some "CatB".toList]]
    [some tdocLit, some "Type".toList] rfl "S1-001".toList
  exact ⟨h.1, h.2.trans rfl⟩

/-- local filesystem state tracked by the model: files present in the download root,
category folders existing under it, archives moved into a folder, extractions performed. -/
structure FS where
  rootFiles : List (List Char)
  folders : List (List Char)
  movedFiles : List (List Char × List Char)
  extracted : List (List Char × List Char)
  deriving DecidableEq

def emptyFS : FS := ⟨[], [], [], []⟩

inductive Warning where
  | noExcel
  | excelDownloadFailed
  | missingSchema
  | transferFailed (file : List Char)
  | unclassified (file : List Char)
  deriving DecidableEq

/-- does `s` start with `pat` (Python `str.startswith`)? -/
def beginsWith : List Char → List Char → Bool
  | [], _ => true
  | _ :: _, [] => false
  | a :: pa, b :: sb => a == b && beginsWith pa sb

/-- does `s` end with `pat` (Python `str.endswith`)? -/
def finishesWith (pat s : List Char) : Bool := beginsWith pat.reverse s.reverse

/-- the manifest-selection predicate: `f.startswith('TDoc_List') and f.endswith('.xlsx')`. -/
def isTdocListXlsx (f : List Char) : Bool :=
  beginsWith "TDoc_List".toList f && finishesWith ".xlsx".toList f

/-- Python `os.path.splitext(p)[0]` for POSIX paths: cut at the rightmost dot of the final
path component unless that component has only dots before it. -/
def splitextRoot (p : List Char) : List Char :=
  let sepIndex : Int := match rfindIdx '/' p with
    | none => -1
    | some i => (i : Int)
  let dotIndex : Int := match rfindIdx '.' p with
    | none => -1
    | some i => (i : Int)
  if sepIndex < dotIndex then
    let fnameStart := (sepIndex + 1).toNat
    let dI := dotIndex.toNat
    if (List.range (dI - fnameStart)).any (fun j => !(p.getD (fnameStart + j) '.' == '.'))
    then p.take dI
    else p
  else p

/-- processing of one listed file in the archive loop of `download_ftp_folder`: a non-zip
name is skipped; a zip is downloaded (per-file outcome given by `dl`; opening the local
file creates it even when every transfer attempt fails); on success the identifier — the
filename without its extension — is looked up in the mapping, and the archive is either
moved into its category folder and extracted there, or left in place with a warning. -/
def zipStep (dl : List Char → Bool) (m : Dict) (st : FS × List Warning)
    (file : List Char) : FS × List Warning :=
  if finishesWith ".zip".toList file then
    let fs1 : FS := { st.1 with rootFiles := st.1.rootFiles ++ [file] }
    if dl file then
      match dictFind? m (splitextRoot file) with
      | some tv =>
        ({ fs1 with rootFiles := fs1.rootFiles.erase file,
                    movedFiles := fs1.movedFiles ++ [(tv, file)],
                    extracted := fs1.extracted ++ [(tv, file)] }, st.2)
      | none => (fs1, st.2 ++ [Warning.unclassified file])
    else (fs1, st.2 ++ [Warning.transferFailed file])
  else st

def processZips (dl : List Char → Bool) (m : Dict) (st : FS × List Warning)
    (files : List (List Char)) : FS × List Warning :=
  files.foldl (zipStep dl m) st

/-- the post-navigation phase of `download_ftp_folder` in `ftp.py`: pick the first
`TDoc_List*.xlsx` listing entry as the manifest (warn and stop when none), download it,
look for the `'TDoc'`/`'Type'` header row, build folders and mapping from every sheet row
after the first when found (warn when not), then download every zip and distribute it —
the zip loop runs even when the header row was missing.  `ftp.py` wraps no retry logic
around `retrbinary`, so downloads are modelled as succeeding. -/
def runFtp (files : List (List Char)) (rows : List ManifestRow) : FS × List Warning :=
  match files.find? isTdocListXlsx with
  | none => (emptyFS, [Warning.noExcel])
  | some excel =>
    let fs0 : FS := { emptyFS with rootFiles := [excel] }
    match rows.find? (rowHasHeaders "Type".toList) with
    | none =>
      processZips (fun _ => true) [] (fs0, [Warning.missingSchema]) files
    | some hr =>
      let st := buildFoldersMap (fun s => sanitize_folder_name_v1 s)
        (hr.indexOf (some tdocLit)) (hr.indexOf (some "Type".toList)) (rows.drop 1)
      processZips (fun _ => true) st.2 ({ fs0 with folders := st.1 }, []) files

/-- the post-navigation phase of `download_ftp_folder` in `ftp_agenda.py`: pick the first
`TDoc_List*.xlsx` entry (warn and stop when none), download it through `download_file`
(outcome `dl excel`), look for the `'TDoc'`/`'Agenda item'` header row; when missing, warn
and download no zip at all; when found, the indexing loop creates the category folders and
the mapping, then the zip loop downloads and distributes each archive. -/
def runAgenda (dl : List Char → Bool) (files : List (List Char))
    (rows : List ManifestRow) : FS × List Warning :=
  match files.find? isTdocListXlsx with
  | none => (emptyFS, [Warning.noExcel])
  | some excel =>
    let fs0 : FS := { emptyFS with rootFiles := [excel] }
    if dl excel then
      match rows.find? (rowHasHeaders "Agenda item".toList) with
      | none => (fs0, [Warning.missingSchema])
      | some hr =>
        let st := buildFoldersMap (fun s => sanitize_folder_name s 50)
          (hr.indexOf (some tdocLit)) (hr.indexOf (some "Agenda item".toList))
          (rows.drop 1)
        processZips dl st.2 ({ fs0 with folders := st.1 }, []) files
    else (fs0, [Warning.excelDownloadFailed])

theorem zipStep_folders (dl : List Char → Bool) (m : Dict) (st : FS × List Warning)
    (f : List Char) : (zipStep dl m st f).1.folders = st.1.folders := by
  unfold zipStep
  by_cases hz : finishesWith ".zip".toList f = true
  · rw [if_pos hz]
    by_cases hdl : dl f = true
    · rw [if_pos hdl]
      cases dictFind? m (splitextRoot f) <;> rfl
    · rw [if_neg hdl]
  · rw [if_neg hz]

theorem processZips_folders (dl : List Char → Bool) (m : Dict) :
    ∀ (files : List (List Char)) (st : FS × List Warning),
      (processZips dl m st files).1.folders = st.1.folders := by
  intro files
  induction files with
  | nil => intro st; rfl
  | cons f rest ih =>
    intro st
    show (processZips dl m (zipStep dl m st f) rest).1.folders = st.1.folders
    rw [ih, zipStep_folders]

theorem zipStep_warnings_mem (dl : List Char → Bool) (m : Dict) (st : FS × List Warning)
    (f : List Char) (w : Warning) (hw : w ∈ st.2) : w ∈ (zipStep dl m st f).2 := by
  unfold zipStep
  by_cases hz : finishesWith ".zip".toList f = true
  · rw [if_pos hz]
    by_cases hdl : dl f = true
    · rw [if_pos hdl]
      cases dictFind? m (splitextRoot f) with
      | some tv => exact hw
      | none => exact List.mem_append_left _ hw
    · rw [if_neg hdl]
      exact List.mem_append_left _ hw
  · rw [if_neg hz]
    exact hw

theorem processZips_warnings_mem (dl : List Char → Bool) (m : Dict) :
    ∀ (files : List (List Char)) (st : FS × List Warning) (w : Warning), w ∈ st.2 →
      w ∈ (processZips dl m st files).2 := by
  intro files
  induction files with
  | nil => intro st w hw; exact hw
  | cons f rest ih =>
    intro st w hw
    exact ih (zipStep dl m st f) w (zipStep_warnings_mem dl m st f w hw)

theorem zipStep_extracted_mono (dl : List Char → Bool) (m : Dict)
    (st : FS × List Warning) (f : List Char) (e : List Char × List Char)
    (he : e ∈ st.1.extracted) : e ∈ (zipStep dl m st f).1.extracted := by
  unfold zipStep
  by_cases hz : finishesWith ".zip".toList f = true
  · rw [if_pos hz]
    by_cases hdl : dl f = true
    · rw [if_pos hdl]
      cases dictFind? m (splitextRoot f) with
      | some tv => exact List.mem_append_left _ he
      | none => exact he
    · rw [if_neg hdl]
      exact he
  · rw [if_neg hz]
    exact he

theorem processZips_extracted_mono (dl : List Char → Bool) (m : Dict) :
    ∀ (files : List (List Char)) (st : FS × List Warning) (e : List Char × List Char),
      e ∈ st.1.extracted → e ∈ (processZips dl m st files).1.extracted := by
  intro files
  induction files with
  | nil => intro st e he; exact he
  | cons f rest ih =>
    intro st e he
    exact ih (zipStep dl m st f) e (zipStep_extracted_mono dl m st f e he)

theorem zipStep_extracts_classified (dl : List Char → Bool) (m : Dict)
    (st : FS × List Warning) (f : List Char) (tv : List Char)
    (hz : finishesWith ".zip".toList f = true) (hdl : dl f = true)
    (hm : dictFind? m (splitextRoot f) = some tv) :
    (tv, f) ∈ (zipStep dl m st f).1.extracted := by
  unfold zipStep
  rw [if_pos hz, if_pos hdl, hm]
  exact List.mem_append_right _ (List.mem_singleton.mpr rfl)

theorem processZips_extracts_classified (dl : List Char → Bool) (m : Dict) :
    ∀ (files : List (List Char)) (st : FS × List Warning) (f : List Char) (tv : List Char),
      f ∈ files → finishesWith ".zip".toList f = true → dl f = true →
      dictFind? m (splitextRoot f) = some tv →
      (tv, f) ∈ (processZips dl m st files).1.extracted := by
  intro files
  induction files with
  | nil => intro st f tv hf; simp at hf
  | cons g rest ih =>
    intro st f tv hf hz hdl hm
    rcases List.mem_cons.mp hf with hfg | hfr
    · subst hfg
      exact processZips_extracted_mono dl m rest (zipStep dl m st f) (tv, f)
        (zipStep_extracts_classified dl m st f tv hz hdl hm)
    · exact ih (zipStep dl m st g) f tv hfr hz hdl hm

theorem zipStep_empty_map (dl : List Char → Bool) (st : FS × List Warning)
    (f : List Char) :
    (zipStep dl [] st f).1.movedFiles = st.1.movedFiles
    ∧ (zipStep dl [] st f).1.extracted = st.1.extracted
    ∧ (∀ x ∈ st.1.rootFiles, x ∈ (zipStep dl [] st f).1.rootFiles)
    ∧ (finishesWith ".zip".toList f = true → f ∈ (zipStep dl [] st f).1.rootFiles) := by
  unfold zipStep
  have hnone : dictFind? [] (splitextRoot f) = none := rfl
  by_cases hz : finishesWith ".zip".toList f = true
  · rw [if_pos hz, hnone]
    by_cases hdl : dl f = true
    · rw [if_pos hdl]
      exact ⟨rfl, rfl, fun x hx => List.mem_append_left _ hx,
        fun _ => List.mem_append_right _ (List.mem_singleton.mpr rfl)⟩
    · rw [if_neg hdl]
      exact ⟨rfl, rfl, fun x hx => List.mem_append_left _ hx,
        fun _ => List.mem_append_right _ (List.mem_singleton.mpr rfl)⟩
  · rw [if_neg hz]
    exact ⟨rfl, rfl, fun x hx => hx, fun hc => absurd hc hz⟩

theorem processZips_empty_map (dl : List Char → Bool) :
    ∀ (files : List (List Char)) (st : FS × List Warning),
      (processZips dl [] st files).1.movedFiles = st.1.movedFiles
      ∧ (processZips dl [] st files).1.extracted = st.1.extracted
      ∧ (∀ x ∈ st.1.rootFiles, x ∈ (processZips dl [] st files).1.rootFiles)
      ∧ (∀ f ∈ files, finishesWith ".zip".toList f = true →
          f ∈ (processZips dl [] st files).1.rootFiles) := by
  intro files
  induction files with
  | nil =>
    intro st
    exact ⟨rfl, rfl, fun x hx => hx, fun f hf => by simp at hf⟩
  | cons g rest ih =>
    intro st
    have hstep := zipStep_empty_map dl st g
    have hind := ih (zipStep dl [] st g)
    refine ⟨?_, ?_, ?_, ?_⟩
    · show (processZips dl [] (zipStep dl [] st g) rest).1.movedFiles = st.1.movedFiles
      rw [hind.1, hstep.1]
    · show (processZips dl [] (zipStep dl [] st g) rest).1.extracted = st.1.extracted
      rw [hind.2.1, hstep.2.1]
    · intro x hx
      exact hind.2.2.1 x (hstep.2.2.1 x hx)
    · intro f hf hzf
      rcases List.mem_cons.mp hf with hfg | hfr
      · subst hfg
        exact hind.2.2.1 f (hstep.2.2.2 hzf)
      · exact hind.2.2.2 f hfr hzf

/-- C2: when no manifest row contains both header labels, the missing schema is signalled
as a warning only and the run continues to its normal end: in `ftp.py` the archive loop
still runs with an empty mapping, so every listed zip is downloaded into the download root
and stays there with nothing moved, extracted, or created; in `ftp_agenda.py` the run stops
after the warning with only the manifest downloaded, so no archive is moved or extracted
there either. -/
theorem missing_header_is_warning_only (files : List (List Char)) (rows : List ManifestRow)
    (excel : List Char) (dl : List Char → Bool)
    (hx : files.find? isTdocListXlsx = some excel)
    (ht : rows.find? (rowHasHeaders "Type".toList) = none)
    (ha : rows.find? (rowHasHeaders "Agenda item".toList) = none)
    (hdl : dl excel = true) :
    (Warning.missingSchema ∈ (runFtp files rows).2
      ∧ (runFtp files rows).1.folders = []
      ∧ (runFtp files rows).1.movedFiles = []
      ∧ (runFtp files rows).1.extracted = []
      ∧ (∀ f ∈ files, finishesWith ".zip".toList f = true →
          f ∈ (runFtp files rows).1.rootFiles))
    ∧ (runAgenda dl files rows).2 = [Warning.missingSchema]
    ∧ (runAgenda dl files rows).1.folders = []
    ∧ (runAgenda dl files rows).1.movedFiles = []
    ∧ (runAgenda dl files rows).1.extracted = []
    ∧ (runAgenda dl files rows).1.rootFiles = [excel] := by
  have hftp : runFtp files rows
      = processZips (fun _ => true) []
          ({ emptyFS with rootFiles := [excel] }, [Warning.missingSchema]) files := by
    simp only [runFtp, hx, ht]
  have hag : runAgenda dl files rows
      = ({ emptyFS with rootFiles := [excel] }, [Warning.missingSchema]) := by
    simp only [runAgenda, hx, ha, hdl, if_true]
  have hempty := processZips_empty_map (fun _ => true) files
    ({ emptyFS with rootFiles := [excel] }, [Warning.missingSchema])
  refine ⟨⟨?_, ?_, ?_, ?_, ?_⟩, ?_, ?_, ?_, ?_, ?_⟩
  · rw [hftp]
    exact processZips_warnings_mem (fun _ => true) [] files _ _ (by simp)
  · rw [hftp, processZips_folders]
    rfl
  · rw [hftp]
    exact hempty.1.trans rfl
  · rw [hftp]
    exact hempty.2.1.trans rfl
  · intro f hf hz
    rw [hftp]
    exact hempty.2.2.2 f hf hz
  · rw [hag]
  · rw [hag]
    rfl
  · rw [hag]
    rfl
  · rw [hag]
    rfl
  · rw [hag]

/-- C2 witness: a manifest without the header pair, one zip in the listing. -/
theorem missing_header_is_warning_only_witness :
    Warning.missingSchema ∈ (runFtp ["TDoc_List_1.xlsx".toList, "S1-001.zip".toList]
        [[some "Foo".toList]]).2
    ∧ (runFtp ["TDoc_List_1.xlsx".toList, "S1-001.zip".toList]
        [[some "Foo".toList]]).1.extracted = []
    ∧ "S1-001.zip".toList ∈ (runFtp ["TDoc_List_1.xlsx".toList, "S1-001.zip".toList]
        [[some "Foo".toList]]).1.rootFiles
    ∧ (runAgenda (fun _ => true) ["TDoc_List_1.xlsx".toList, "S1-001.zip".toList]
        [[some "Foo".toList]]).2 = [Warning.missingSchema] := by
  have h := missing_header_is_warning_only
    ["TDoc_List_1.xlsx".toList, "S1-001.zip".toList] [[some "Foo".toList]]
    "TDoc_List_1.xlsx".toList (fun _ => true) rfl rfl rfl rfl
  exact ⟨h.1.1, h.1.2.2.2.1, h.1.2.2.2.2 "S1-001.zip".toList (by decide) (by decide), h.2.1⟩

/-- C10: when no listed file starts with `TDoc_List` and ends with `.xlsx`, both pipelines
download nothing at all — the final filesystem state is empty — print the warning and end
normally; and when matches exist, the manifest used is the first match in the host's
listing order. -/
theorem no_manifest_downloads_nothing_first_match (files : List (List Char))
    (rows : List ManifestRow) (dl : List Char → Bool)
    (h : files.find? isTdocListXlsx = none) :
    runFtp files rows = (emptyFS, [Warning.noExcel])
    ∧ runAgenda dl files rows = (emptyFS, [Warning.noExcel])
    ∧ (∀ (pre post : List (List Char)) (f : List Char),
        (∀ g ∈ pre, isTdocListXlsx g = false) → isTdocListXlsx f = true →
        (pre ++ f :: post).find? isTdocListXlsx = some f) := by
  refine ⟨?_, ?_, ?_⟩
  · simp only [runFtp, h]
  · simp only [runAgenda, h]
  · intro pre
    induction pre with
    | nil =>
      intro post f _ hf
      rw [List.nil_append]
      exact List.find?_cons_of_pos post hf
    | cons g rest ih =>
      intro post f hpre hf
      rw [List.cons_append,
        List.find?_cons_of_neg _ (by simp [hpre g (List.mem_cons_self g rest)])]
      exact ih post f (fun x hx => hpre x (List.mem_cons_of_mem _ hx)) hf

/-- C10 witness: a listing with no manifest candidate, and a listing where the first of
two candidates is selected. -/
theorem no_manifest_downloads_nothing_first_match_witness :
    runFtp ["readme.txt".toList, "S1-001.zip".toList] [] = (emptyFS, [Warning.noExcel])
    ∧ ["other.doc".toList, "TDoc_List_A.xlsx".toList,
        "TDoc_List_B.xlsx".toList].find? isTdocListXlsx = some "TDoc_List_A.xlsx".toList := by
  have h := no_manifest_downloads_nothing_first_match
    ["readme.txt".toList, "S1-001.zip".toList] [] (fun _ => true) (by decide)
  refine ⟨h.1, ?_⟩
  have h2 := h.2.2 ["other.doc".toList] ["TDoc_List_B.toList".toList]
    "TDoc_List_A.xlsx".toList (by decide) (by decide)
  exact h2.symm ▸ (by decide)

/-- C6: the distribution step for a downloaded archive whose identifier is absent from the
mapping appends a warning and leaves everything else unchanged — the archive stays at its
path in the download root, nothing is moved or extracted, no folder is created — and the
loop continues with the remaining archives from exactly that state. -/
theorem unclassified_archive_left_in_place (dl : List Char → Bool) (m : Dict)
    (st : FS × List Warning) (file : List Char) (rest : List (List Char))
    (hz : finishesWith ".zip".toList file = true) (hdl : dl file = true)
    (hm : dictFind? m (splitextRoot file) = none) :
    zipStep dl m st file
      = ({ st.1 with rootFiles := st.1.rootFiles ++ [file] },
          st.2 ++ [Warning.unclassified file])
    ∧ processZips dl m st (file :: rest)
      = processZips dl m ({ st.1 with rootFiles := st.1.rootFiles ++ [file] },
          st.2 ++ [Warning.unclassified file]) rest := by
  have h1 : zipStep dl m st file
      = ({ st.1 with rootFiles := st.1.rootFiles ++ [file] },
          st.2 ++ [Warning.unclassified file]) := by
    unfold zipStep
    rw [if_pos hz, if_pos hdl, hm]
  refine ⟨h1, ?_⟩
  show processZips dl m (zipStep dl m st file) rest = _
  rw [h1]

/-- C6 witness: an unmapped zip stays in the root with a warning. -/
theorem unclassified_archive_left_in_place_witness :
    zipStep (fun _ => true) [] (emptyFS, []) "S9-001.zip".toList
      = ({ emptyFS with rootFiles := ["S9-001.zip".toList] },
          [Warning.unclassified "S9-001.zip".toList]) := by
  exact (unclassified_archive_left_in_place (fun _ => true) [] (emptyFS, [])
    "S9-001.zip".toList [] (by decide) rfl rfl).1

theorem mem_addFolder (fs : List (List Char)) (f fo : List Char) :
    fo ∈ addFolder fs f ↔ fo ∈ fs ∨ fo = f := by
  unfold addFolder
  by_cases h : fs.contains f = true
  · rw [if_pos h]
    constructor
    · exact Or.inl
    · rintro (hf | hf)
      · exact hf
      · subst hf; simpa using h
  · rw [if_neg h]
    simp [List.mem_append]

theorem buildFoldersMap_folders_mem (san : List Char → List Char) (ti ci : Nat) :
    ∀ (rows : List ManifestRow) (st : List (List Char) × Dict) (fo : List Char),
      fo ∈ (rows.foldl (indexRowStep san ti ci) st).1
        ↔ fo ∈ st.1 ∨ ∃ r, r ∈ rows
            ∧ (decide (max ti ci < r.length) && truthyCell (r.getD ci none)
                && truthyCell (r.getD ti none)) = true
            ∧ san ((r.getD ci none).getD []) = fo := by
  intro rows
  induction rows with
  | nil =>
    intro st fo
    simp
  | cons r rest ih =>
    intro st fo
    rw [List.foldl_cons, ih]
    rw [folders_indexRowStep]
    by_cases hc : (decide (max ti ci < r.length) && truthyCell (r.getD ci none)
        && truthyCell (r.getD ti none)) = true
    · rw [if_pos hc]
      rw [mem_addFolder]
      constructor
      · rintro ((hf | hf) | ⟨r', hr', hc', hs'⟩)
        · exact Or.inl hf
        · exact Or.inr ⟨r, List.mem_cons_self r rest, hc, hf.symm⟩
        · exact Or.inr ⟨r', List.mem_cons_of_mem _ hr', hc', hs'⟩
      · rintro (hf | ⟨r', hr', hc', hs'⟩)
        · exact Or.inl (Or.inl hf)
        · rcases List.mem_cons.mp hr' with he | he
          · subst he
            exact Or.inl (Or.inr hs'.symm)
          · exact Or.inr ⟨r', he, hc', hs'⟩
    · rw [if_neg hc]
      constructor
      · rintro (hf | ⟨r', hr', hc', hs'⟩)
        · exact Or.inl hf
        · exact Or.inr ⟨r', List.mem_cons_of_mem _ hr', hc', hs'⟩
      · rintro (hf | ⟨r', hr', hc', hs'⟩)
        · exact Or.inl hf
        · rcases List.mem_cons.mp hr' with he | he
          · subst he; exact absurd hc' hc
          · exact Or.inr ⟨r', he, hc', hs'⟩

/-- C5 counterexample: a manifest with one valid data row but no zip archive in the
listing — nothing is distributed, yet the category folder exists, because the indexing
loop creates folders while building the mapping, not at distribution time. -/
theorem folder_created_without_any_distribution :
    (runAgenda (fun _ => true) ["TDoc_List_1.xlsx".toList]
        [[some tdocLit, some "Agenda item".toList],
         [some "S1-001".toList, some "Security".toList]]).1.extracted = []
    ∧ (runAgenda (fun _ => true) ["TDoc_List_1.xlsx".toList]
        [[some tdocLit, some "Agenda item".toList],
         [some "S1-001".toList, some "Security".toList]]).1.movedFiles = []
    ∧ (runAgenda (fun _ => true) ["TDoc_List_1.xlsx".toList]
        [[some tdocLit, some "Agenda item".toList],
         [some "S1-001".toList, some "Security".toList]]).1.folders
      = ["Security".toList] := ⟨rfl, rfl, rfl⟩

/-- C5 (amended): category folders are created eagerly by the indexing loop — one per
distinct sanitized category of a processed row with both positions in range and both
values non-empty — before any archive is downloaded or distributed; the distribution
loop itself creates no folder, so the final folder set equals the one the indexing
loop built. -/
theorem folders_created_during_indexing (dl : List Char → Bool)
    (files : List (List Char)) (rows : List ManifestRow) (excel : List Char)
    (hr : ManifestRow) (hx : files.find? isTdocListXlsx = some excel)
    (hdl : dl excel = true)
    (hh : rows.find? (rowHasHeaders "Agenda item".toList) = some hr) :
    (runAgenda dl files rows).1.folders
      = (buildFoldersMap (fun s => sanitize_folder_name s 50)
          (hr.indexOf (some tdocLit)) (hr.indexOf (some "Agenda item".toList))
          (rows.drop 1)).1
    ∧ ∀ fo, fo ∈ (buildFoldersMap (fun s => sanitize_folder_name s 50)
          (hr.indexOf (some tdocLit)) (hr.indexOf (some "Agenda item".toList))
          (rows.drop 1)).1
        ↔ ∃ r, r ∈ rows.drop 1
            ∧ (decide (max (hr.indexOf (some tdocLit))
                  (hr.indexOf (some "Agenda item".toList)) < r.length)
                && truthyCell (r.getD (hr.indexOf (some "Agenda item".toList)) none)
                && truthyCell (r.getD (hr.indexOf (some tdocLit)) none)) = true
            ∧ sanitize_folder_name
                ((r.getD (hr.indexOf (some "Agenda item".toList)) none).getD []) 50
              = fo := by
  constructor
  · simp only [runAgenda, hx, hdl, hh, if_true]
    rw [processZips_folders]
  · intro fo
    unfold buildFoldersMap
    rw [buildFoldersMap_folders_mem]
    simp

/-- C5 witness: the amended statement at the counterexample input. -/
theorem folders_created_during_indexing_witness :
    (runAgenda (fun _ => true) ["TDoc_List_1.xlsx".toList]
        [[some tdocLit, some "Agenda item".toList],
         [some "S1-001".toList, some "Security".toList]]).1.folders
      = (buildFoldersMap (fun s => sanitize_folder_name s 50) 0 1
          [[some "S1-001".toList, some "Security".toList]]).1 := by
  exact (folders_created_during_indexing (fun _ => true) ["TDoc_List_1.xlsx".toList]
    [[some tdocLit, some "Agenda item".toList],
     [some "S1-001".toList, some "Security".toList]]
    "TDoc_List_1.xlsx".toList [some tdocLit, some "Agenda item".toList]
    rfl rfl rfl).1

inductive Ev where
  | refresh
  | attempt (i : Nat)
  | sleep
  deriving DecidableEq

def isAttemptEv : Ev → Bool
  | Ev.attempt _ => true
  | _ => false

/-- loop body of `download_file` in `ftp_agenda.py`, with the per-attempt transfer outcome
given by `oracle`: each iteration refreshes the connection, then tries the transfer — on
success it returns `True` at once; on a transient error it sleeps `delay` seconds and
retries unless this was the last attempt, in which case it returns `False`.  `fuel` is the
number of attempts still available (`max_attempts - i`); with `max_attempts = 0` the loop
body never runs and Python falls off the function returning `None`, modelled as `none`.
The event trace records the refresh before every attempt and the sleep after every
non-final failed attempt. -/
def dfGo (oracle : Nat → Bool) : Nat → Nat → Option Bool × List Ev
  | 0, _ => (none, [])
  | fuel + 1, i =>
    if oracle i then (some true, [Ev.refresh, Ev.attempt i])
    else if 0 < fuel then
      let r := dfGo oracle fuel (i + 1)
      (r.1, [Ev.refresh, Ev.attempt i, Ev.sleep] ++ r.2)
    else (some false, [Ev.refresh, Ev.attempt i])

/-- `download_file(ftp, remote, local, host, max_attempts, delay)` of `ftp_agenda.py`,
abstracted over the side effects: the boolean outcome and the refresh/attempt/sleep trace. -/
def download_file (oracle : Nat → Bool) (maxAttempts : Nat) : Option Bool × List Ev :=
  dfGo oracle maxAttempts 0

theorem dfGo_success_iff (oracle : Nat → Bool) :
    ∀ (fuel i : Nat), (dfGo oracle fuel i).1 = some true
      ↔ ∃ j, i ≤ j ∧ j < i + fuel ∧ oracle j = true := by
  intro fuel
  induction fuel with
  | zero =>
    intro i
    simp only [dfGo]
    constructor
    · intro h; simp at h
    · rintro ⟨j, h1, h2, _⟩; omega
  | succ fuel ih =>
    intro i
    by_cases ho : oracle i = true
    · simp only [dfGo, ho, if_true]
      constructor
      · intro _; exact ⟨i, le_refl i, by omega, ho⟩
      · intro _; trivial
    · by_cases hf : 0 < fuel
      · simp only [dfGo, ho, Bool.false_eq_true, if_false, if_pos hf]
        rw [ih (i + 1)]
        constructor
        · rintro ⟨j, h1, h2, h3⟩
          exact ⟨j, by omega, by omega, h3⟩
        · rintro ⟨j, h1, h2, h3⟩
          refine ⟨j, ?_, by omega, h3⟩
          rcases Nat.eq_or_lt_of_le h1 with he | hl
          · subst he; exact absurd h3 ho
          · omega
      · simp only [dfGo, ho, Bool.false_eq_true, if_false, if_neg hf]
        constructor
        · intro h; simp at h
        · rintro ⟨j, h1, h2, h3⟩
          have : j = i := by omega
          subst this
          exact absurd h3 ho

theorem dfGo_all_fail (oracle : Nat → Bool) :
    ∀ (fuel i : Nat), 1 ≤ fuel → (∀ j, i ≤ j → j < i + fuel → oracle j = false) →
      (dfGo oracle fuel i).1 = some false := by
  intro fuel
  induction fuel with
  | zero => intro i h; omega
  | succ fuel ih =>
    intro i _ hall
    have ho : oracle i = false := hall i (le_refl i) (by omega)
    by_cases hf : 0 < fuel
    · simp only [dfGo, ho, Bool.false_eq_true, if_false, if_pos hf]
      exact ih (i + 1) (by omega) (fun j h1 h2 => hall j (by omega) (by omega))
    · simp only [dfGo, ho, Bool.false_eq_true, if_false, if_neg hf]

theorem dfGo_counts (oracle : Nat → Bool) :
    ∀ (fuel i : Nat), 1 ≤ fuel →
      (dfGo oracle fuel i).2.countP isAttemptEv ≤ fuel
      ∧ (dfGo oracle fuel i).2.count Ev.refresh = (dfGo oracle fuel i).2.countP isAttemptEv
      ∧ (dfGo oracle fuel i).2.count Ev.sleep + 1
          = (dfGo oracle fuel i).2.countP isAttemptEv := by
  intro fuel
  induction fuel with
  | zero => intro i h; omega
  | succ fuel ih =>
    intro i _
    by_cases ho : oracle i = true
    · simp only [dfGo, ho, if_true]
      refine ⟨?_, ?_, ?_⟩ <;> simp [List.countP_cons, List.count_cons, isAttemptEv]
    · by_cases hf : 0 < fuel
      · have h := ih (i + 1) (by omega)
        simp only [dfGo, ho, Bool.false_eq_true, if_false, if_pos hf]
        refine ⟨?_, ?_, ?_⟩
        · rw [List.countP_append]
          have : ([Ev.refresh, Ev.attempt i, Ev.sleep]).countP isAttemptEv = 1 := by
            simp [List.countP_cons, isAttemptEv]
          rw [this]
          omega
        · rw [List.count_append, List.countP_append]
          have h1 : ([Ev.refresh, Ev.attempt i, Ev.sleep]).count Ev.refresh = 1 := by
            simp [List.count_cons]
          have h2 : ([Ev.refresh, Ev.attempt i, Ev.sleep]).countP isAttemptEv = 1 := by
            simp [List.countP_cons, isAttemptEv]
          rw [h1, h2, h.2.1]
        · rw [List.count_append, List.countP_append]
          have h1 : ([Ev.refresh, Ev.attempt i, Ev.sleep]).count Ev.sleep = 1 := by
            simp [List.count_cons]
          have h2 : ([Ev.refresh, Ev.attempt i, Ev.sleep]).countP isAttemptEv = 1 := by
            simp [List.countP_cons, isAttemptEv]
          rw [h1, h2]
          omega
      · simp only [dfGo, ho, Bool.false_eq_true, if_false, if_neg hf]
        refine ⟨?_, ?_, ?_⟩ <;> simp [List.countP_cons, List.count_cons, isAttemptEv]

/-- C7: `download_file` makes up to `maxAttempts` attempts, refreshing the session before
every attempt (refresh and attempt events are in bijection) and sleeping the fixed delay
after every failed attempt that is followed by another (one fewer sleep than attempts);
the outcome is success exactly when some attempt below `maxAttempts` succeeds, it is
failure after all attempts fail, and the failure concerns that file only: the archive
loop goes on, and any later listed zip that downloads and is classified is still
distributed and extracted. -/
theorem download_file_retries_then_caller_continues (oracle : Nat → Bool)
    (maxAttempts : Nat) (hn : 1 ≤ maxAttempts) :
    ((download_file oracle maxAttempts).1 = some true
      ↔ ∃ j, j < maxAttempts ∧ oracle j = true)
    ∧ ((∀ j, j < maxAttempts → oracle j = false) →
        (download_file oracle maxAttempts).1 = some false)
    ∧ (download_file oracle maxAttempts).2.countP isAttemptEv ≤ maxAttempts
    ∧ (download_file oracle maxAttempts).2.count Ev.refresh
        = (download_file oracle maxAttempts).2.countP isAttemptEv
    ∧ (download_file oracle maxAttempts).2.count Ev.sleep + 1
        = (download_file oracle maxAttempts).2.countP isAttemptEv
    ∧ (∀ (dl : List Char → Bool) (m : Dict) (st : FS × List Warning)
        (fs2 : List (List Char)) (f tv : List Char), f ∈ fs2 →
        finishesWith ".zip".toList f = true → dl f = true →
        dictFind? m (splitextRoot f) = some tv →
        (tv, f) ∈ (processZips dl m st fs2).1.extracted) := by
  have hc := dfGo_counts oracle maxAttempts 0 hn
  refine ⟨?_, ?_, hc.1, hc.2.1, hc.2.2, ?_⟩
  · unfold download_file
    rw [dfGo_success_iff]
    constructor
    · rintro ⟨j, _, h2, h3⟩; exact ⟨j, by omega, h3⟩
    · rintro ⟨j, h2, h3⟩; exact ⟨j, by omega, by omega, h3⟩
  · intro hall
    unfold download_file
    exact dfGo_all_fail oracle maxAttempts 0 hn (fun j h1 h2 => hall j (by omega))
  · intro dl m st fs2 f tv hf hz hdl hm
    exact processZips_extracts_classified dl m fs2 st f tv hf hz hdl hm

/-- C7 witness (scenario C): two transient failures then success on the third of three
attempts — the outcome is success, with a refresh before each attempt and a sleep after
each of the two failures; and a classified zip that downloads is distributed. -/
theorem download_file_retries_then_caller_continues_witness :
    (download_file (fun i => i == 2) 3).1 = some true
    ∧ (download_file (fun i => i == 2) 3).2
        = [Ev.refresh, Ev.attempt 0, Ev.sleep, Ev.refresh, Ev.attempt 1, Ev.sleep,
           Ev.refresh, Ev.attempt 2]
    ∧ ("Security".toList, "S1-003.zip".toList)
        ∈ (processZips (fun _ => true) [("S1-003".toList, "Security".toList)]
            (emptyFS, []) ["S1-003.zip".toList]).1.extracted := by
  have h := download_file_retries_then_caller_continues (fun i => i == 2) 3 (by omega)
  refine ⟨h.1.mpr ⟨2, by omega, by decide⟩, by decide, ?_⟩
  exact h.2.2.2.2.2 (fun _ => true) [("S1-003".toList, "Security".toList)] (emptyFS, [])
    ["S1-003.zip".toList] "S1-003.zip".toList "Security".toList (by decide) (by decide)
    rfl (by decide)
